import Mathlib

/-!
Verification of the "surgical scrub" cleaning utilities of the coast_guard
repository (`clean_utils.py`) against its specification.

The numeric code is embedded shallowly over an arbitrary linear ordered field
`α` (instantiated at `ℚ` for concrete evaluations and at `ℝ` where the code
uses transcendental functions).  numpy masked arrays become `MSeries`: a value
vector paired with a boolean mask.  External library calls that the repository
treats as black boxes (`scipy.optimize.leastsq`, `scipy.stats.normaltest`,
`scipy.stats.norm.rvs`, the float square root) are taken as explicit function
parameters; everything else is translated directly from the source.
-/

set_option maxHeartbeats 1000000

namespace CoastGuard

variable {α : Type} [LinearOrderedField α]

/-- `np.median` / `np.ma.median` of a plain 1-D array (the masked version is
applied to the compressed, i.e. unmasked, values): sort ascending, take the
middle element for odd length and the average of the two middle elements for
even length.  The (never exercised) empty case yields `0`. -/
def npMedian (xs : List α) : α :=
  if xs.length % 2 = 1 then
    (List.insertionSort (· ≤ ·) xs).getD (xs.length / 2) 0
  else
    ((List.insertionSort (· ≤ ·) xs).getD (xs.length / 2 - 1) 0 +
      (List.insertionSort (· ≤ ·) xs).getD (xs.length / 2) 0) / 2

/-- A numpy masked array of length `n`: data values plus a boolean mask.
`mask i = true` means position `i` is masked (carries no information). -/
structure MSeries (α : Type) (n : ℕ) where
  val : Fin n → α
  mask : Fin n → Bool

/-- Indices of the unmasked entries, in increasing order. -/
def unmaskedIdx {n : ℕ} (y : MSeries α n) : List (Fin n) :=
  (List.finRange n).filter (fun i => !y.mask i)

/-- `masked.compressed()`: the unmasked values, in positional order. -/
def unmaskedList {n : ℕ} (y : MSeries α n) : List α :=
  (unmaskedIdx y).map y.val

/-- `np.ma.count`: the number of unmasked values. -/
def countUnmasked {n : ℕ} (y : MSeries α n) : ℕ :=
  (unmaskedList y).length

/-- `np.round` (banker's rounding: ties go to the even integer), as used by
`np.round(np.linspace(...))` in `detrend`'s `numpieces` branch. -/
def npRound (q : ℚ) : ℤ :=
  if q - ⌊q⌋ < 1/2 then ⌊q⌋
  else if (1:ℚ)/2 < q - ⌊q⌋ then ⌊q⌋ + 1
  else if ⌊q⌋ % 2 = 0 then ⌊q⌋ else ⌊q⌋ + 1

/-- Dot product of two coefficient lists (excess entries are ignored). -/
def dotL (xs ys : List α) : α :=
  ((xs.zip ys).map (fun p => p.1 * p.2)).sum

/-- Find the first row of an augmented linear system whose leading coefficient
is nonzero; return it together with the remaining rows in order. -/
def findPivot [DecidableEq α] : List (List α × α) → Option ((List α × α) × List (List α × α))
  | [] => none
  | r :: rs =>
    if r.1.headD 0 ≠ 0 then some (r, rs)
    else
      match findPivot rs with
      | some (p, rest) => some (p, r :: rest)
      | none => none

/-- Eliminate the leading column of `row` using the pivot row. -/
def elimRow (piv row : List α × α) : List α × α :=
  ((row.1.tail.zip piv.1.tail).map
      (fun p => p.1 - (row.1.headD 0 / piv.1.headD 0) * p.2),
    row.2 - (row.1.headD 0 / piv.1.headD 0) * piv.2)

/-- Gaussian elimination on an `m × m` augmented system (rows paired with
their right-hand sides).  A column without a pivot gets the coefficient `0`. -/
def gaussSolve [DecidableEq α] : ℕ → List (List α × α) → List α
  | 0, _ => []
  | m + 1, rows =>
    match findPivot rows with
    | none => 0 :: gaussSolve m (rows.map (fun r => (r.1.tail, r.2)))
    | some (piv, rest) =>
      (piv.2 - dotL piv.1.tail (gaussSolve m (rest.map (elimRow piv)))) / piv.1.headD 0 ::
        gaussSolve m (rest.map (elimRow piv))

/-- `scipy.linalg.lstsq(A, ycomp)` for the Vandermonde matrix
`A = xcomp ** powers` of `detrend`: for a full-rank system the least-squares
solution is the unique solution of the normal equations
`(Aᵀ·A)·c = Aᵀ·y`, which we compute by Gaussian elimination. -/
def lstsqPoly [DecidableEq α] (xs ys : List α) (order : ℕ) : List α :=
  gaussSolve (order + 1)
    ((List.range (order + 1)).map (fun p =>
      ((List.range (order + 1)).map (fun q => (xs.map (fun x => x ^ (p + q))).sum),
        ((xs.zip ys).map (fun v => v.1 ^ p * v.2)).sum)))

/-- `np.dot(A, x)` for one row of the decompressed Vandermonde matrix:
evaluate the fitted polynomial `Σ coeffs[p] * x^p`. -/
def polyEval (coeffs : List α) (x : α) : α :=
  match coeffs with
  | [] => 0
  | c :: cs => c + x * polyEval cs x

/-- Segment boundary list of `detrend`: `[0] + bp + [len(ydata)]`, or the
rounded `np.linspace(0, len(ydata), numpieces+1)` when `numpieces` is given. -/
def edgesOf (n : ℕ) (bp : List ℕ) (numpieces : Option ℕ) : List ℕ :=
  match numpieces with
  | none => 0 :: (bp ++ [n])
  | some k => (List.range (k + 1)).map (fun i => (npRound ((i * n : ℚ) / k)).toNat)

/-- The unmasked indices of the slice `[start:stop]`
(`ymasked[start:stop].compressed()` keeps exactly these positions). -/
def segUnmasked {n : ℕ} (y : MSeries α n) (s t : ℕ) : List (Fin n) :=
  (List.finRange n).filter (fun i => decide (s ≤ i.val ∧ i.val < t) && !y.mask i)

/-- Least-squares polynomial coefficients fitted on one segment: x-data are the
positional indices (the callers in `clean_utils.py` never pass `xdata`). -/
def segCoeffs [DecidableEq α] {n : ℕ} (y : MSeries α n) (order s t : ℕ) : List α :=
  lstsqPoly ((segUnmasked y s t).map (fun j => (j.val : α)))
    ((segUnmasked y s t).map y.val) order

/-- `detrend(ydata, order=order, bp=bp, numpieces=numpieces)`: per segment,
fit a degree-`order` polynomial to the unmasked points and subtract the fitted
curve from every position of the segment (masked ones included); a segment
with no unmasked point is skipped.  The mask is preserved.  Overlapping
segments (unsorted breakpoints) subtract cumulatively, exactly as the
source's in-place `detrended.data[start:stop] -= ...` does. -/
def detrend [DecidableEq α] {n : ℕ} (y : MSeries α n) (order : ℕ) (bp : List ℕ)
    (numpieces : Option ℕ) : MSeries α n :=
  { val := fun i => y.val i -
      (((edgesOf n bp numpieces).zip (edgesOf n bp numpieces).tail).map (fun st =>
        if (segUnmasked y st.1 st.2).length = 0 then 0
        else if st.1 ≤ i.val ∧ i.val < st.2 then
          polyEval (segCoeffs y order st.1 st.2) (i.val : α)
        else 0)).sum,
    mask := y.mask }

/-- Median of the unmasked values of a series (`np.ma.median(detrended)`). -/
def seriesMedian {n : ℕ} (d : MSeries α n) : α :=
  npMedian (unmaskedList d)

/-- Median absolute deviation of the unmasked values
(`np.ma.median(np.abs(detrended-median))`). -/
def seriesMad {n : ℕ} (d : MSeries α n) : α :=
  npMedian ((unmaskedList d).map (fun v => |v - seriesMedian d|))

/-- One pass of the body of `iterative_detrend`'s loop: detrend, then mask
every point lying more than `thresh` MADs from the median
(`np.ma.masked_where` keeps already-masked positions masked). -/
def itdetStep [DecidableEq α] {n : ℕ} (thresh : α) (order : ℕ) (bp : List ℕ)
    (numpieces : Option ℕ) (y : MSeries α n) : MSeries α n :=
  { val := (detrend y order bp numpieces).val,
    mask := fun i => (detrend y order bp numpieces).mask i ||
      decide ((detrend y order bp numpieces).val i <
        seriesMedian (detrend y order bp numpieces) -
          thresh * seriesMad (detrend y order bp numpieces)) ||
      decide ((detrend y order bp numpieces).val i >
        seriesMedian (detrend y order bp numpieces) +
          thresh * seriesMad (detrend y order bp numpieces)) }

/-- The `while ymasked.count():` loop of `iterative_detrend`, with explicit
fuel.  Each iteration either leaves the mask unchanged (and stops) or strictly
grows it, so `n + 1` units of fuel realise the unbounded source loop. -/
def itdetLoop [DecidableEq α] {n : ℕ} (thresh : α) (order : ℕ) (bp : List ℕ)
    (numpieces : Option ℕ) : ℕ → MSeries α n → MSeries α n
  | 0, y => y
  | fuel + 1, y =>
    if countUnmasked y = 0 then y
    else
      if (itdetStep thresh order bp numpieces y).mask = y.mask then
        itdetStep thresh order bp numpieces y
      else itdetLoop thresh order bp numpieces fuel (itdetStep thresh order bp numpieces y)

/-- `iterative_detrend(ydata, thresh=5, reset_mask=True, *args, **kwargs)`.
A fully masked input is returned unchanged.  (The source lines 178-183 mask
outliers of the raw data into a temporary that the loop's first statement
immediately overwrites, so they contribute nothing to the result.)  When
`reset_mask` is true the original mask replaces the derived one. -/
def iterative_detrend [DecidableEq α] {n : ℕ} (thresh : α) (reset_mask : Bool)
    (order : ℕ) (bp : List ℕ) (numpieces : Option ℕ) (y : MSeries α n) : MSeries α n :=
  if countUnmasked y = 0 then y
  else
    if reset_mask then
      { val := (itdetLoop thresh order bp numpieces (n + 1) y).val, mask := y.mask }
    else itdetLoop thresh order bp numpieces (n + 1) y

/-- One entry of a configured detrend chain: the `(order, breakpoints,
numpieces)` triple that `channel_scaler` / `subint_scaler` read from
`config.cfg.{chan,subint}_{order,breakpoints,numpieces}`. -/
structure DetrendEntry where
  order : ℕ
  bp : List ℕ
  numpieces : Option ℕ

/-- A plain (unmasked) 1-D slice wrapped as a masked series. -/
def allFalseSeries {n : ℕ} (v : Fin n → α) : MSeries α n :=
  { val := v, mask := fun _ => false }

/-- The chained detrend loop of `channel_scaler` (lines 78-83): the output of
each `iterative_detrend` call is the input of the next. -/
def chainSuccessive [DecidableEq α] {n : ℕ} (chain : List DetrendEntry)
    (s : MSeries α n) : MSeries α n :=
  chain.foldl (fun cur e => iterative_detrend 5 true e.order e.bp e.numpieces cur) s

/-- The detrend loop of `subint_scaler` (lines 95-100): every chain entry is
applied to the original slice `array2d[isub,:]` — the running variable
`detrended` is overwritten, not fed forward — so only the last entry's result
survives. -/
def subintChainSource [DecidableEq α] {n : ℕ} (chain : List DetrendEntry)
    (row : MSeries α n) : MSeries α n :=
  chain.foldl (fun _cur e => iterative_detrend 5 true e.order e.bp e.numpieces row) row

/-- The final robust normalization of both scalers (lines 84-86 and 101-103):
`(detrended - median)/mad`, assigned into the plain output array.
`detrended` is a masked array, so the division is `np.ma`'s domain-protected
divide (`_DomainSafeDivide`): where the denominator is zero the quotient is
masked and the numerator is copied back as the underlying data
(`np.copyto(result, da, where=m)`) — it never produces an IEEE NaN.  The
assignment `scaled[:, ichan] = ...` keeps only that underlying data.  In this
exact-arithmetic embedding the only domain failure is an exactly-zero
denominator, and the guard applies uniformly since `mad` is a scalar. -/
def scaledOf {n : ℕ} (d : MSeries α n) : Fin n → α :=
  fun i =>
    if seriesMad d = 0 then d.val i - seriesMedian d
    else (d.val i - seriesMedian d) / seriesMad d

/-- Column `ichan` of a diagnostic matrix, as the (unmasked) series
`array2d[:, ichan]`. -/
def colSeries {ns nc : ℕ} (m : Fin ns → Fin nc → α) (j : Fin nc) : MSeries α ns :=
  allFalseSeries (fun i => m i j)

/-- Row `isub` of a diagnostic matrix, as the (unmasked) series
`array2d[isub, :]`. -/
def rowSeries {ns nc : ℕ} (m : Fin ns → Fin nc → α) (i : Fin ns) : MSeries α nc :=
  allFalseSeries (fun j => m i j)

/-- `channel_scaler(array2d)`: detrend-chain each column, then output
`(value - median)/MAD` of the final detrended column. -/
def channel_scaler [DecidableEq α] {ns nc : ℕ} (chain : List DetrendEntry)
    (m : Fin ns → Fin nc → α) : Fin ns → Fin nc → α :=
  fun i j => scaledOf (chainSuccessive chain (colSeries m j)) i

/-- `subint_scaler(array2d)`: per row, run the (non-feeding) detrend loop of
the source, then output `(value - median)/MAD` of the final detrended row. -/
def subint_scaler [DecidableEq α] {ns nc : ℕ} (chain : List DetrendEntry)
    (m : Fin ns → Fin nc → α) : Fin ns → Fin nc → α :=
  fun i j => scaledOf (subintChainSource chain (rowSeries m i)) j

/-- Modelled from the spec (§4.2 Axis Scaler): the sub-observation scaler with
the detrend chain "applied successively via `iterative_detrend`" to each row —
the output of each call is the input of the next — followed by the same
`(value - median)/MAD` normalization. -/
def specSubintScalerChained [DecidableEq α] {ns nc : ℕ} (chain : List DetrendEntry)
    (m : Fin ns → Fin nc → α) : Fin ns → Fin nc → α :=
  fun i j => scaledOf (chainSuccessive chain (rowSeries m i)) j

/-! ### Hot-bin detection (`get_hot_bins`, lines 490-546)

`scipy.stats.normaltest` is external; it is modelled as an abstract statistic
`normstat : List α → α` on the compressed (unmasked) values, except that on an
empty sample scipy raises, which the embedding reports as an explicit error. -/

/-- `masked_data.compressed()` for a list-with-mask pair. -/
def compressedL (vals : List α) (mask : List Bool) : List α :=
  ((vals.zip mask).filter (fun p => !p.2)).map (fun p => p.1)

/-- `np.flatnonzero(masked_data.mask)`: indices of the masked entries. -/
def flatnonzeroL (mask : List Bool) : List ℕ :=
  (mask.enum.filter (fun p => p.2)).map (fun p => p.1)

/-- `np.argmax(masked_data)`: index of the first occurrence of the largest
unmasked value (`0` if everything is masked, which the loop never queries). -/
def argmaxM (vals : List α) (mask : List Bool) : ℕ :=
  (((vals.zip mask).enum.foldl (fun best p =>
      if p.2.2 then best
      else
        match best with
        | none => some (p.1, p.2.1)
        | some b => if p.2.1 > b.2 then some (p.1, p.2.1) else some b) none).map
    (fun b => b.1)).getD 0

/-- `np.argmin(masked_data)`: index of the first occurrence of the smallest
unmasked value. -/
def argminM (vals : List α) (mask : List Bool) : ℕ :=
  (((vals.zip mask).enum.foldl (fun best p =>
      if p.2.2 then best
      else
        match best with
        | none => some (p.1, p.2.1)
        | some b => if p.2.1 < b.2 then some (p.1, p.2.1) else some b) none).map
    (fun b => b.1)).getD 0

/-- `np.median(masked_data)` applied to a *masked* array (source line 527 uses
`np.median`, not `np.ma.median`): `np.sort` orders the unmasked values first
and keeps the masked entries at the end, and the mean of the two middle
entries of the full-length sorted array drops masked ones.  A fully masked
middle would give the masked constant, modelled as `0` (never reached here). -/
def npMedianMasked (vals : List α) (mask : List Bool) : α :=
  if vals.length % 2 = 1 then
    if vals.length / 2 < (compressedL vals mask).length then
      (List.insertionSort (· ≤ ·) (compressedL vals mask)).getD (vals.length / 2) 0
    else 0
  else
    if vals.length / 2 < (compressedL vals mask).length then
      ((List.insertionSort (· ≤ ·) (compressedL vals mask)).getD (vals.length / 2 - 1) 0 +
        (List.insertionSort (· ≤ ·) (compressedL vals mask)).getD (vals.length / 2) 0) / 2
    else if vals.length / 2 - 1 < (compressedL vals mask).length then
      (List.insertionSort (· ≤ ·) (compressedL vals mask)).getD (vals.length / 2 - 1) 0
    else 0

/-- The ways `get_hot_bins` can raise instead of returning.
`nameErrorHotBins`: the cap-check branch reads the never-assigned local
`hot_bins` (`len(hot_bins)`), a Python `NameError`.
`emptyStatNormtest`: `scipy.stats.normaltest` called on zero values raises.
`outOfFuel` cannot occur: every loop iteration masks one more bin. -/
inductive GhbErr where
  | nameErrorHotBins
  | emptyStatNormtest
  | outOfFuel
deriving DecidableEq

/-- The `while masked_data.count():` loop of `get_hot_bins`.  State: current
mask and `prev_stat`.  Python's `None` return (falling off the loop) is
`Except.ok none`. -/
def ghbLoop (normstat : List α → α) (thresh : α) (maxNumHot : Option ℕ)
    (onlyDecreasing : Bool) (vals : List α) :
    ℕ → List Bool → α → Except GhbErr (Option (List ℕ × ℕ))
  | 0, _, _ => .error .outOfFuel
  | fuel + 1, mask, prevStat =>
    if (compressedL vals mask).length = 0 then .ok none
    else if prevStat < thresh then .ok (some (flatnonzeroL mask, 0))
    else if maxNumHot.isSome then .error .nameErrorHotBins
    else
      let median := npMedianMasked vals mask
      let median_to_max := vals.getD (argmaxM vals mask) 0 - median
      let median_to_min := median - vals.getD (argminM vals mask) 0
      let to_mask := if median_to_max > median_to_min then argmaxM vals mask
        else argminM vals mask
      let mask2 := mask.set to_mask true
      if (compressedL vals mask2).length = 0 then .error .emptyStatNormtest
      else
        let curr_stat := normstat (compressedL vals mask2)
        if onlyDecreasing && decide (curr_stat > prevStat) then
          .ok (some (flatnonzeroL mask, 1))
        else ghbLoop normstat thresh maxNumHot onlyDecreasing vals fuel mask2 curr_stat

/-- `get_hot_bins(data, normstat_thresh, max_num_hot, only_decreasing)`.
The initial mask is all-unmasked (`np.zeros_like`), the initial statistic is
`normstat` of the whole data (scipy raises on an empty profile). -/
def get_hot_bins (normstat : List α → α) (normstat_thresh : α)
    (max_num_hot : Option ℕ) (only_decreasing : Bool) (vals : List α) :
    Except GhbErr (Option (List ℕ × ℕ)) :=
  if vals.length = 0 then .error .emptyStatNormtest
  else
    ghbLoop normstat normstat_thresh max_num_hot only_decreasing vals
      (vals.length + 1) (List.replicate vals.length false) (normstat vals)

/-! ### Template removal (`remove_profile*`, lines 349-426)

`scipy.optimize.leastsq(err, [1])` is external: it is modelled as a parameter
`leastsq` mapping the error function and the initial guess to the pair
`(params, status)`.  Each cell's fit depends only on that cell's profile and
the shared read-only template, which is what makes the parallel dispatch
deterministic. -/

/-- The fit residual function `err = lambda amp: amp*template - prof`. -/
def profErr {nb : ℕ} (template prof : Fin nb → α) : α → Fin nb → α :=
  fun amp i => amp * template i - prof i

/-- `remove_profile1d(prof, isub, ichan, template)`: least-squares fit of the
scaled template; a solver status outside `(1,2,3,4)` yields an all-zero
residual (`np.zeros_like(prof)`), otherwise the residual `err(params)`.
The Python value is always an array, never `None`, hence always `some`. -/
def remove_profile1d {nb : ℕ} (leastsq : (α → Fin nb → α) → α → α × ℤ)
    (prof : Fin nb → α) (isub ichan : ℕ) (template : Fin nb → α) :
    (ℕ × ℕ) × Option (Fin nb → α) :=
  if ¬((leastsq (profErr template prof) 1).2 = 1 ∨
      (leastsq (profErr template prof) 1).2 = 2 ∨
      (leastsq (profErr template prof) 1).2 = 3 ∨
      (leastsq (profErr template prof) 1).2 = 4) then
    ((isub, ichan), some (fun _ => 0))
  else
    ((isub, ichan), some (profErr template prof (leastsq (profErr template prof) 1).1))

/-- `np.ndindex(nsubs, nchans)`: all (sub-integration, channel) index pairs,
row-major. -/
def ndindexL (a b : ℕ) : List (Fin a × Fin b) :=
  (List.finRange a) ×ˢ (List.finRange b)

/-- The per-cell write of `remove_profile`'s loops: the second component of
`remove_profile1d` (always `some`; assigning Python's `None` into the numpy
array would raise, so the `none` case is unreachable and leaves the cell). -/
def rpCellWrite {nb : ℕ} (leastsq : (α → Fin nb → α) → α → α × ℤ)
    (template : Fin nb → α) (p : ℕ × ℕ) (v : Fin nb → α) : Fin nb → α :=
  match (remove_profile1d leastsq v p.1 p.2 template).2 with
  | some w => w
  | none => v

/-- The `nthreads == 1` branch of `remove_profile`: iterate over `ndindex`,
overwriting each cell with its own fit residual in place. -/
def remove_profile_single {ns nc nb : ℕ} (leastsq : (α → Fin nb → α) → α → α × ℤ)
    (data : Fin ns × Fin nc → Fin nb → α) (template : Fin nb → α) :
    Fin ns × Fin nc → Fin nb → α :=
  (ndindexL ns nc).foldl (fun d p =>
    Function.update d p (rpCellWrite leastsq template (p.1.val, p.2.val) (d p))) data

/-- The `nthreads > 1` branch of `remove_profile`: submit one task per cell
(each reading the snapshot of its own cell), join, then write every returned
`(isub, ichan), prof` pair back (the returned index pair equals the submitted
one, since `remove_profile1d` echoes its arguments). -/
def remove_profile_parallel {ns nc nb : ℕ} (leastsq : (α → Fin nb → α) → α → α × ℤ)
    (data : Fin ns × Fin nc → Fin nb → α) (template : Fin nb → α) :
    Fin ns × Fin nc → Fin nb → α :=
  ((ndindexL ns nc).map (fun p =>
      (p, remove_profile1d leastsq (data p) p.1.val p.2.val template))).foldl
    (fun d pr =>
      match pr.2.2 with
      | some v => Function.update d pr.1 v
      | none => d) data

/-- `remove_profile(data, nsubs, nchans, template, nthreads)` (the `None`
default reads `config.cfg.nthreads`, here an explicit argument). -/
def remove_profile {ns nc nb : ℕ} (leastsq : (α → Fin nb → α) → α → α × ℤ)
    (data : Fin ns × Fin nc → Fin nb → α) (template : Fin nb → α)
    (nthreads : ℕ) : Fin ns × Fin nc → Fin nb → α :=
  if nthreads = 1 then remove_profile_single leastsq data template
  else remove_profile_parallel leastsq data template

/-- The cell value wrapped in `some` by `remove_profile1d` (used to state that
both thread branches store the same thing). -/
def rpValue {nb : ℕ} (leastsq : (α → Fin nb → α) → α → α × ℤ)
    (template prof : Fin nb → α) : Fin nb → α :=
  if ¬((leastsq (profErr template prof) 1).2 = 1 ∨
      (leastsq (profErr template prof) 1).2 = 2 ∨
      (leastsq (profErr template prof) 1).2 = 3 ∨
      (leastsq (profErr template prof) 1).2 = 4) then fun _ => 0
  else profErr template prof (leastsq (profErr template prof) 1).1

/-- One archive profile: a weight and the amplitude array
(`prof.get_weight()` / `prof.get_amps()`). -/
structure PsrProfile (α : Type) (nb : ℕ) where
  weight : α
  amps : Fin nb → α

/-- A single-polarization archive as addressed by `remove_profile_inplace`
(it only ever touches `ar.get_Profile(isub, 0, ichan)`). -/
structure SPolArchive (α : Type) (ns nc nb : ℕ) where
  profs : Fin ns × Fin nc → PsrProfile α nb

/-- `remove_profile_inplace(ar, template, nthreads)`: per cell, run
`remove_profile1d` (note: **not** `remove_profile1d_inplace`) on the snapshot
`data = ar.get_data().squeeze()`; if the result `amps` is `None` zero the
profile's weight, else overwrite its amplitudes.  Both thread branches
perform these same per-cell writes. -/
def remove_profile_inplace {ns nc nb : ℕ} (leastsq : (α → Fin nb → α) → α → α × ℤ)
    (ar : SPolArchive α ns nc nb) (template : Fin nb → α) : SPolArchive α ns nc nb :=
  { profs := (ndindexL ns nc).foldl (fun ps p =>
      match (remove_profile1d leastsq ((fun q => (ar.profs q).amps) p)
          p.1.val p.2.val template).2 with
      | none => Function.update ps p { weight := 0, amps := (ps p).amps }
      | some v => Function.update ps p { weight := (ps p).weight, amps := v }) ar.profs }

/-- `remove_profile1d_inplace`: identical fit, but a bad solver status yields
`None` (so the caller could zero the weight).  Defined in the source and never
called by it. -/
def remove_profile1d_inplace {nb : ℕ} (leastsq : (α → Fin nb → α) → α → α × ℤ)
    (prof : Fin nb → α) (isub ichan : ℕ) (template : Fin nb → α) :
    (ℕ × ℕ) × Option (Fin nb → α) :=
  if ¬((leastsq (profErr template prof) 1).2 = 1 ∨
      (leastsq (profErr template prof) 1).2 = 2 ∨
      (leastsq (profErr template prof) 1).2 = 3 ∨
      (leastsq (profErr template prof) 1).2 = 4) then
    ((isub, ichan), none)
  else
    ((isub, ichan), some (profErr template prof (leastsq (profErr template prof) 1).1))

/-! ### Hot-bin replacement (`clean_subint`, lines 469-487)

`scipy.stats.norm.rvs(loc, scale, size)` is external randomness, modelled as
a parameter `rvs`; the float square root inside `masked_data.std()` is the
parameter `sqrtFn` (`ℚ` has no exact square root; the drawn noise values do
not affect the frame properties). -/

/-- A full archive as addressed by `clean_subint`: sub-integration ×
polarization × channel profiles. -/
structure Archive (α : Type) (nsub npol nchan nbin : ℕ) where
  profs : Fin nsub → Fin npol → Fin nchan → PsrProfile α nbin

/-- Sequential writes `data[ii] = newval` for `ii, newval in zip(bins, noise)`. -/
def writeAll {nbin : ℕ} (amps : Fin nbin → α) : List (Fin nbin × α) → Fin nbin → α
  | [] => amps
  | w :: ws => writeAll (Function.update amps w.1 w.2) ws

/-- The amplitudes at the bins *not* being replaced
(`np.ma.array(data, mask=mask)` with `mask[bins] = 1`, compressed). -/
def keptAmps {nbin : ℕ} (amps : Fin nbin → α) (bins : List (Fin nbin)) : List α :=
  ((List.finRange nbin).filter (fun b => decide (b ∉ bins))).map amps

/-- `masked_data.mean()`: mean of the unmasked amplitudes. -/
def maskedMean (vals : List α) : α := vals.sum / vals.length

/-- `masked_data.std()`: population standard deviation of the unmasked
amplitudes, with the square root supplied externally. -/
def maskedStd (sqrtFn : α → α) (vals : List α) : α :=
  sqrtFn ((vals.map (fun v => (v - maskedMean vals) ^ 2)).sum / vals.length)

/-- The loop body of `clean_subint` for one profile: skip zero-weight
profiles (`if prof.get_weight():`); otherwise draw `len(bins)` noise samples
from the mean/std of the unreplaced bins and write them into the listed bins. -/
def cleanProf {nbin : ℕ} [DecidableEq α] (sqrtFn : α → α)
    (rvs : α → α → ℕ → List α) (bins : List (Fin nbin))
    (prof : PsrProfile α nbin) : PsrProfile α nbin :=
  if prof.weight ≠ 0 then
    { weight := prof.weight,
      amps := writeAll prof.amps
        (bins.zip (rvs (maskedMean (keptAmps prof.amps bins))
          (maskedStd sqrtFn (keptAmps prof.amps bins)) bins.length)) }
  else prof

/-- `clean_subint(ar, isub, bins)`: apply `cleanProf` to every (polarization,
channel) profile of sub-integration `isub`; all other sub-integrations are
untouched. -/
def clean_subint {nsub npol nchan nbin : ℕ} [DecidableEq α] (sqrtFn : α → α)
    (rvs : α → α → ℕ → List α) (ar : Archive α nsub npol nchan nbin)
    (isub : Fin nsub) (bins : List (Fin nbin)) : Archive α nsub npol nchan nbin :=
  { profs := fun s =>
      if s = isub then fun ipol ichan => cleanProf sqrtFn rvs bins (ar.profs s ipol ichan)
      else ar.profs s }

/-! ### Diagnostic aggregation (`comprehensive_stats`, lines 25-71)

Stated over `ℝ` since the fourth diagnostic is a discrete Fourier transform.
The data cube is a plain (weight-applied) array, so the `np.ma` diagnostic
functions coincide with their unmasked counterparts. -/

/-- Largest entry of a list (`np.max`; lists here are nonempty). -/
def listMaxD (l : List α) : α := l.foldl max (l.headD 0)

/-- Smallest entry of a list (`np.min`). -/
def listMinD (l : List α) : α := l.foldl min (l.headD 0)

/-- Mean over the phase-bin axis of one cell (`data.mean(axis=axis)`). -/
noncomputable def diagMean {nb : ℕ} (xs : Fin nb → ℝ) : ℝ :=
  ((List.finRange nb).map xs).sum / nb

/-- `np.ma.std` over the phase-bin axis: population standard deviation. -/
noncomputable def diagStd {nb : ℕ} (xs : Fin nb → ℝ) : ℝ :=
  Real.sqrt ((((List.finRange nb).map (fun k => (xs k - diagMean xs) ^ 2)).sum) / nb)

/-- `np.ma.ptp` over the phase-bin axis: peak-to-peak range. -/
noncomputable def diagPtp {nb : ℕ} (xs : Fin nb → ℝ) : ℝ :=
  listMaxD ((List.finRange nb).map xs) - listMinD ((List.finRange nb).map xs)

/-- The fourth diagnostic: `np.max(np.abs(np.fft.rfft(data - mean)))` — the
largest magnitude among the `nb/2 + 1` real-FFT coefficients
`Σⱼ (xⱼ - mean)·exp(-2πi·j·k/nb)` of the mean-subtracted slice. -/
noncomputable def diagFftMax {nb : ℕ} (xs : Fin nb → ℝ) : ℝ :=
  listMaxD ((List.range (nb / 2 + 1)).map (fun k =>
    Complex.abs (((List.finRange nb).map (fun j =>
      ((xs j - diagMean xs : ℝ) : ℂ) *
        Complex.exp (-(2 * Real.pi * Complex.I) * (j.val : ℂ) * (k : ℂ) / (nb : ℂ)))).sum)))

/-- `comprehensive_stats(data, axis, chanthresh, subintthresh, ...)`: compute
the four diagnostic matrices over the phase-bin axis, scale each with both
axis scalers, normalize by the two thresholds, take the elementwise max of
the two normalized matrices, and return the elementwise median across the
four diagnostics.  (`binthresh` is read from the config but never used.) -/
noncomputable def comprehensive_stats {ns nc nb : ℕ} (chanChain subintChain : List DetrendEntry)
    (chanthresh subintthresh : ℝ) (data : Fin ns → Fin nc → Fin nb → ℝ) :
    Fin ns → Fin nc → ℝ :=
  fun i j =>
    npMedian (([fun a b => diagStd (data a b),
        fun a b => diagMean (data a b),
        fun a b => diagPtp (data a b),
        fun a b => diagFftMax (data a b)].map
      (fun diag => fun a b =>
        max (|channel_scaler chanChain diag a b| / chanthresh)
          (|subint_scaler subintChain diag a b| / subintthresh))).map
      (fun m => m i j))

/-! ## Theorems -/

set_option maxRecDepth 80000 in
/-- C1: the spec requires both axis scalers to apply the detrend chain
successively, each `iterative_detrend` output feeding the next call.
`channel_scaler` does (third conjunct, on the transposed matrix), but
`subint_scaler` hands every chain entry the original row, so with the
two-entry chain `[(order 0, bp [2]), (order 0, bp [])]` on the single row
`[0, 1, 2, 3]` it outputs the value `-1/2` at column 1, where successive
chaining (second conjunct) outputs `1`. -/
theorem claim_C1 :
    subint_scaler [⟨0, [2], none⟩, ⟨0, [], none⟩]
        (fun (_ : Fin 1) (j : Fin 4) => (j.val : ℚ)) 0 1 = -(1/2) ∧
    specSubintScalerChained [⟨0, [2], none⟩, ⟨0, [], none⟩]
        (fun (_ : Fin 1) (j : Fin 4) => (j.val : ℚ)) 0 1 = 1 ∧
    channel_scaler [⟨0, [2], none⟩, ⟨0, [], none⟩]
        (fun (j : Fin 4) (_ : Fin 1) => (j.val : ℚ)) 1 0 = 1 :=
  ⟨by with_unfolding_all rfl, by with_unfolding_all rfl, by with_unfolding_all rfl⟩

/-- C3: with a finite `max_num_hot` cap and the normality statistic still at
or above the threshold, `get_hot_bins` does not return the masked indices
with status 2 — its cap-check branch evaluates `len(hot_bins)` where
`hot_bins` was never assigned, raising a `NameError` on the very first
iteration (here: profile `[0, 1, 2]`, constant statistic `10 ≥ 6.3`,
cap `1`). -/
theorem claim_C3 :
    get_hot_bins (fun _ => (10:ℚ)) (63/10) (some 1) true [0, 1, 2] =
      .error .nameErrorHotBins := by
  with_unfolding_all rfl

/-- C7: when the greedy loop masks every bin, `get_hot_bins` computes the
normality statistic over an empty set of values: on the profile `[0, 1]` with
a statistic that never drops below the threshold and never increases
(constant `10`, threshold `6.3`), the loop masks bin 0, then bin 1, and then
calls `scipy.stats.normaltest` on zero unmasked values, which raises. -/
theorem claim_C7 :
    get_hot_bins (fun _ => (10:ℚ)) (63/10) none true [0, 1] =
      .error .emptyStatNormtest := by
  with_unfolding_all rfl

/-- C4: for a solver status outside `{1,2,3,4}` (here status `0`), copy mode
(`remove_profile1d`) does set the cell's residual to all zeros (first
conjunct), but in-place mode does not zero the profile's weight: it calls
`remove_profile1d` — not `remove_profile1d_inplace` — so `amps` is never
`None`; the weight stays `7` and the amplitudes are zeroed instead (second
and third conjuncts).  The last conjunct shows the never-called
`remove_profile1d_inplace` would have returned `None`. -/
theorem claim_C4 :
    (remove_profile1d (fun _ _ => ((1:ℚ), (0:ℤ))) (fun _ : Fin 1 => (5:ℚ)) 0 0
        (fun _ => 1)).2 = some (fun _ => (0:ℚ)) ∧
    ((remove_profile_inplace (fun _ _ => ((1:ℚ), (0:ℤ)))
        (⟨fun _ => ⟨7, fun _ => 5⟩⟩ : SPolArchive ℚ 1 1 1)
        (fun _ => 1)).profs (0, 0)).weight = 7 ∧
    ((remove_profile_inplace (fun _ _ => ((1:ℚ), (0:ℤ)))
        (⟨fun _ => ⟨7, fun _ => 5⟩⟩ : SPolArchive ℚ 1 1 1)
        (fun _ => 1)).profs (0, 0)).amps 0 = 0 ∧
    (remove_profile1d_inplace (fun _ _ => ((1:ℚ), (0:ℤ))) (fun _ : Fin 1 => (5:ℚ)) 0 0
        (fun _ => 1)).2 = none :=
  ⟨by with_unfolding_all rfl, by with_unfolding_all rfl,
   by with_unfolding_all rfl, by with_unfolding_all rfl⟩

/-- Every entry of a list of equal elements equals that element, by index. -/
theorem getD_all_eq {c : α} :
    ∀ (xs : List α) (i : ℕ), (∀ v ∈ xs, v = c) → i < xs.length → xs.getD i 0 = c := by
  intro xs
  induction xs with
  | nil => intro i _ hi; simp at hi
  | cons x t ih =>
    intro i h hi
    cases i with
    | zero => exact h x (List.mem_cons_self x t)
    | succ m =>
      rw [List.getD_cons_succ]
      exact ih m (fun v hv => h v (List.mem_cons_of_mem x hv)) (by simpa using hi)

/-- The median of a nonempty list of equal values is that value. -/
theorem npMedian_all_eq (xs : List α) (c : α) (hall : ∀ v ∈ xs, v = c)
    (hne : xs ≠ []) : npMedian xs = c := by
  have hperm := List.perm_insertionSort (· ≤ ·) xs
  have hsall : ∀ v ∈ List.insertionSort (· ≤ ·) xs, v = c := fun v hv =>
    hall v (hperm.mem_iff.mp hv)
  have hlen : (List.insertionSort (· ≤ ·) xs).length = xs.length := hperm.length_eq
  have hpos : 0 < xs.length := List.length_pos.mpr hne
  have h2 : xs.length / 2 < xs.length := Nat.div_lt_self hpos (by norm_num)
  have hget : ∀ i : ℕ, i < xs.length → (List.insertionSort (· ≤ ·) xs).getD i 0 = c :=
    fun i hi => getD_all_eq _ i hsall (hlen ▸ hi)
  unfold npMedian
  by_cases hodd : xs.length % 2 = 1
  · rw [if_pos hodd, hget _ h2]
  · rw [if_neg hodd, hget _ h2, hget _ (lt_of_le_of_lt (Nat.sub_le _ _) h2),
      div_eq_iff (by norm_num : (2:α) ≠ 0)]
    ring

/-- A series whose unmasked values are all equal has MAD 0. -/
theorem seriesMad_all_eq {n : ℕ} (d : MSeries α n) (c : α)
    (hall : ∀ v ∈ unmaskedList d, v = c) : seriesMad d = 0 := by
  unfold seriesMad
  by_cases hne : unmaskedList d = []
  · rw [hne]
    simp [npMedian]
  · refine npMedian_all_eq _ 0 ?_ (by simp [hne])
    intro v hv
    rcases List.mem_map.mp hv with ⟨w, hw, rfl⟩
    have hmed : seriesMedian d = c := npMedian_all_eq _ c hall hne
    rw [hall w hw, hmed, sub_self, abs_zero]

/-- C5: when the unmasked values of the series being scaled are all equal,
its MAD is 0 (first conjunct), and `np.ma`'s domain-protected divide masks
the zero-denominator quotient and stores the finite numerator
`value - median` as the data (second conjunct) — never an IEEE NaN; at every
unmasked position that stored output is the defined finite value 0 (third
conjunct), the output the spec suggests. -/
theorem claim_C5 {α : Type} [LinearOrderedField α] {n : ℕ}
    (d : MSeries α n) (c : α) (hall : ∀ v ∈ unmaskedList d, v = c) :
    seriesMad d = 0 ∧
    (∀ i : Fin n, scaledOf d i = d.val i - seriesMedian d) ∧
    (unmaskedList d ≠ [] → ∀ i : Fin n, d.mask i = false → scaledOf d i = 0) := by
  have hmad : seriesMad d = 0 := seriesMad_all_eq d c hall
  refine ⟨hmad, fun i => ?_, fun hne i hi => ?_⟩
  · unfold scaledOf
    rw [if_pos hmad]
  · have hval : d.val i ∈ unmaskedList d := by
      unfold unmaskedList unmaskedIdx
      exact List.mem_map.mpr
        ⟨i, List.mem_filter.mpr ⟨List.mem_finRange i, by simp [hi]⟩, rfl⟩
    have hmed : seriesMedian d = c := npMedian_all_eq _ c hall hne
    unfold scaledOf
    rw [if_pos hmad, hall _ hval, hmed, sub_self]

set_option maxRecDepth 80000 in
/-- Witness for C5 on the constant series `[2, 2, 2, 2]` pushed through the
channel scaler's detrend chain `[(order 0, no breakpoints)]`: the final
detrended series has MAD 0 and the scaled output at the (unmasked) position 0
is the defined value 0. -/
theorem claim_C5_witness :
    seriesMad (chainSuccessive [⟨0, [], none⟩]
        (allFalseSeries (fun _ : Fin 4 => (2:ℚ)))) = 0 ∧
    scaledOf (chainSuccessive [⟨0, [], none⟩]
        (allFalseSeries (fun _ : Fin 4 => (2:ℚ)))) 0 = 0 :=
  ⟨(claim_C5 (chainSuccessive [⟨0, [], none⟩]
        (allFalseSeries (fun _ : Fin 4 => (2:ℚ)))) 0
      (by with_unfolding_all decide)).1,
   (claim_C5 (chainSuccessive [⟨0, [], none⟩]
        (allFalseSeries (fun _ : Fin 4 => (2:ℚ)))) 0
      (by with_unfolding_all decide)).2.2
    (by with_unfolding_all decide) 0 (by with_unfolding_all rfl)⟩

/-- C2: `comprehensive_stats` computes exactly the four diagnostics —
standard deviation, mean, peak-to-peak, max rfft magnitude of the
mean-subtracted slice — over the phase-bin axis; per diagnostic it takes the
elementwise max of `|channel-scaled|/chanthresh` and
`|subint-scaled|/subintthresh`, and returns the elementwise median of the
four combined matrices. -/
theorem claim_C2 {ns nc nb : ℕ} (chanChain subintChain : List DetrendEntry)
    (chanthresh subintthresh : ℝ) (data : Fin ns → Fin nc → Fin nb → ℝ)
    (i : Fin ns) (j : Fin nc) :
    comprehensive_stats chanChain subintChain chanthresh subintthresh data i j =
      npMedian
        [max (|channel_scaler chanChain (fun a b => diagStd (data a b)) i j| / chanthresh)
            (|subint_scaler subintChain (fun a b => diagStd (data a b)) i j| / subintthresh),
         max (|channel_scaler chanChain (fun a b => diagMean (data a b)) i j| / chanthresh)
            (|subint_scaler subintChain (fun a b => diagMean (data a b)) i j| / subintthresh),
         max (|channel_scaler chanChain (fun a b => diagPtp (data a b)) i j| / chanthresh)
            (|subint_scaler subintChain (fun a b => diagPtp (data a b)) i j| / subintthresh),
         max (|channel_scaler chanChain (fun a b => diagFftMax (data a b)) i j| / chanthresh)
            (|subint_scaler subintChain (fun a b => diagFftMax (data a b)) i j| / subintthresh)] :=
  rfl

/-- `detrend` never touches the mask. -/
theorem detrend_mask [DecidableEq α] {n : ℕ} (y : MSeries α n) (order : ℕ)
    (bp : List ℕ) (numpieces : Option ℕ) :
    (detrend y order bp numpieces).mask = y.mask :=
  rfl

/-- One loop iteration only adds to the mask (`masked_where` keeps masked
positions masked). -/
theorem itdetStep_mask_mono [DecidableEq α] {n : ℕ} (thresh : α) (order : ℕ)
    (bp : List ℕ) (numpieces : Option ℕ) (y : MSeries α n) (i : Fin n)
    (h : y.mask i = true) : (itdetStep thresh order bp numpieces y).mask i = true := by
  show ((detrend y order bp numpieces).mask i || _ || _) = true
  rw [detrend_mask, h, Bool.true_or, Bool.true_or]

/-- Across loop iterations the mask never shrinks. -/
theorem itdetLoop_mask_mono [DecidableEq α] {n : ℕ} (thresh : α) (order : ℕ)
    (bp : List ℕ) (numpieces : Option ℕ) :
    ∀ (fuel : ℕ) (y : MSeries α n) (i : Fin n), y.mask i = true →
      (itdetLoop thresh order bp numpieces fuel y).mask i = true := by
  intro fuel
  induction fuel with
  | zero => intro y i h; exact h
  | succ m ih =>
    intro y i h
    rw [itdetLoop]
    by_cases h0 : countUnmasked y = 0
    · rw [if_pos h0]; exact h
    · rw [if_neg h0]
      by_cases hm : (itdetStep thresh order bp numpieces y).mask = y.mask
      · rw [if_pos hm]
        exact itdetStep_mask_mono thresh order bp numpieces y i h
      · rw [if_neg hm]
        exact ih _ i (itdetStep_mask_mono thresh order bp numpieces y i h)

/-- C8: the mask of an `iterative_detrend` run is monotonically non-shrinking
— one loop iteration (`itdetStep`) and hence the whole loop (`itdetLoop`)
only ever add masked positions — and with `reset_mask = True` the returned
series carries exactly the original input mask. -/
theorem claim_C8 {α : Type} [LinearOrderedField α] [DecidableEq α] {n : ℕ}
    (thresh : α) (order : ℕ) (bp : List ℕ) (numpieces : Option ℕ) :
    (∀ (y : MSeries α n) (i : Fin n), y.mask i = true →
        (itdetStep thresh order bp numpieces y).mask i = true) ∧
    (∀ (fuel : ℕ) (y : MSeries α n) (i : Fin n), y.mask i = true →
        (itdetLoop thresh order bp numpieces fuel y).mask i = true) ∧
    (∀ y : MSeries α n, (iterative_detrend thresh true order bp numpieces y).mask = y.mask) := by
  refine ⟨itdetStep_mask_mono thresh order bp numpieces,
    itdetLoop_mask_mono thresh order bp numpieces, fun y => ?_⟩
  rw [iterative_detrend]
  by_cases h0 : countUnmasked y = 0
  · rw [if_pos h0]
  · rw [if_neg h0, if_pos rfl]

/-- Witness for C8 at a concrete input: the already-masked position 0 of the
series `([3, 100], mask [true, false])` stays masked after one iteration, and
a full `reset_mask` run returns the original mask. -/
theorem claim_C8_witness :
    (itdetStep (5:ℚ) 0 [] none ⟨![3, 100], ![true, false]⟩).mask 0 = true ∧
    (iterative_detrend (5:ℚ) true 0 [] none ⟨![3, 100], ![true, false]⟩).mask = ![true, false] :=
  ⟨(claim_C8 (5:ℚ) 0 [] none).1 ⟨![3, 100], ![true, false]⟩ 0 (by with_unfolding_all rfl),
   (claim_C8 (5:ℚ) 0 [] none).2.2 ⟨![3, 100], ![true, false]⟩⟩

/-- `remove_profile1d` always returns `some` of the canonical cell value. -/
theorem rp1d_snd {nb : ℕ} (leastsq : (α → Fin nb → α) → α → α × ℤ)
    (v : Fin nb → α) (a b : ℕ) (template : Fin nb → α) :
    (remove_profile1d leastsq v a b template).2 = some (rpValue leastsq template v) := by
  unfold remove_profile1d rpValue
  split_ifs <;> rfl

/-- The per-cell write of the single-threaded loop is the canonical value. -/
theorem rpCellWrite_eq {nb : ℕ} (leastsq : (α → Fin nb → α) → α → α × ℤ)
    (template : Fin nb → α) (q : ℕ × ℕ) (v : Fin nb → α) :
    rpCellWrite leastsq template q v = rpValue leastsq template v := by
  unfold rpCellWrite
  rw [rp1d_snd]

/-- Every index pair is listed by `ndindex`. -/
theorem mem_ndindexL {a b : ℕ} (p : Fin a × Fin b) : p ∈ ndindexL a b := by
  rcases p with ⟨i, j⟩
  simp [ndindexL, List.mem_product]

/-- `ndindex` lists each index pair once. -/
theorem ndindexL_nodup (a b : ℕ) : (ndindexL a b).Nodup :=
  (List.nodup_finRange a).product (List.nodup_finRange b)

/-- Characterization of the single-threaded write loop: over distinct cells,
each cell ends up with the fit of its own original content. -/
theorem rpSingle_foldl {ns nc nb : ℕ} (leastsq : (α → Fin nb → α) → α → α × ℤ)
    (template : Fin nb → α) :
    ∀ (l : List (Fin ns × Fin nc)), l.Nodup →
      ∀ (s : Fin ns × Fin nc → Fin nb → α) (k : Fin ns × Fin nc),
        (l.foldl (fun d p =>
            Function.update d p (rpCellWrite leastsq template (p.1.val, p.2.val) (d p))) s) k =
          if k ∈ l then rpValue leastsq template (s k) else s k := by
  intro l
  induction l with
  | nil => intro _ s k; simp
  | cons p tl ih =>
    intro hnd s k
    rcases List.nodup_cons.mp hnd with ⟨hp, htl⟩
    rw [List.foldl_cons, ih htl]
    by_cases hk : k ∈ tl
    · have hne : k ≠ p := fun he => hp (he ▸ hk)
      rw [if_pos hk, if_pos (List.mem_cons_of_mem p hk), Function.update_noteq hne]
    · by_cases he : k = p
      · subst he
        rw [if_neg hk, if_pos (List.mem_cons_self k tl), Function.update_same,
          rpCellWrite_eq]
      · rw [if_neg hk, if_neg (by simp [List.mem_cons, he, hk]),
          Function.update_noteq he]

/-- Characterization of the parallel gather loop: each returned task result is
written to its own cell, computed from the pre-loop snapshot. -/
theorem rpParallel_foldl {ns nc nb : ℕ} (leastsq : (α → Fin nb → α) → α → α × ℤ)
    (template : Fin nb → α) (data : Fin ns × Fin nc → Fin nb → α) :
    ∀ (l : List (Fin ns × Fin nc)) (s : Fin ns × Fin nc → Fin nb → α)
      (k : Fin ns × Fin nc),
      ((l.map (fun p =>
          (p, remove_profile1d leastsq (data p) p.1.val p.2.val template))).foldl
        (fun d pr =>
          match pr.2.2 with
          | some v => Function.update d pr.1 v
          | none => d) s) k =
        if k ∈ l then rpValue leastsq template (data k) else s k := by
  intro l
  induction l with
  | nil => intro s k; simp
  | cons p tl ih =>
    intro s k
    rw [List.map_cons, List.foldl_cons, ih]
    simp only [rp1d_snd]
    by_cases hk : k ∈ tl
    · rw [if_pos hk, if_pos (List.mem_cons_of_mem p hk)]
    · by_cases he : k = p
      · subst he
        rw [if_neg hk, if_pos (List.mem_cons_self k tl), Function.update_same]
      · rw [if_neg hk, if_neg (by simp [List.mem_cons, he, hk]),
          Function.update_noteq he]

/-- The `nthreads == 1` branch, per cell. -/
theorem remove_profile_single_apply {ns nc nb : ℕ}
    (leastsq : (α → Fin nb → α) → α → α × ℤ)
    (data : Fin ns × Fin nc → Fin nb → α) (template : Fin nb → α)
    (k : Fin ns × Fin nc) :
    remove_profile_single leastsq data template k = rpValue leastsq template (data k) := by
  unfold remove_profile_single
  rw [rpSingle_foldl leastsq template (ndindexL ns nc) (ndindexL_nodup ns nc) data k,
    if_pos (mem_ndindexL k)]

/-- The `nthreads > 1` branch, per cell. -/
theorem remove_profile_parallel_apply {ns nc nb : ℕ}
    (leastsq : (α → Fin nb → α) → α → α × ℤ)
    (data : Fin ns × Fin nc → Fin nb → α) (template : Fin nb → α)
    (k : Fin ns × Fin nc) :
    remove_profile_parallel leastsq data template k = rpValue leastsq template (data k) := by
  unfold remove_profile_parallel
  rw [rpParallel_foldl leastsq template data (ndindexL ns nc) data k,
    if_pos (mem_ndindexL k)]

/-- C9: `remove_profile` with `nthreads = 1` and with any other worker count
writes the identical value into every (sub-integration, channel) cell: each
cell's result is the least-squares residual of that cell's own profile against
the shared read-only template, independent of task order. -/
theorem claim_C9 {α : Type} [LinearOrderedField α] {ns nc nb : ℕ}
    (leastsq : (α → Fin nb → α) → α → α × ℤ)
    (data : Fin ns × Fin nc → Fin nb → α) (template : Fin nb → α)
    (nthreads : ℕ) (k : Fin ns × Fin nc) :
    remove_profile leastsq data template 1 k =
      remove_profile leastsq data template nthreads k := by
  unfold remove_profile
  rw [if_pos rfl]
  by_cases h : nthreads = 1
  · rw [if_pos h]
  · rw [if_neg h, remove_profile_single_apply, remove_profile_parallel_apply]

omit [LinearOrderedField α] in
/-- Positions outside the written bin list keep their amplitude. -/
theorem writeAll_notin {nbin : ℕ} :
    ∀ (ws : List (Fin nbin × α)) (amps : Fin nbin → α) (b : Fin nbin),
      (∀ w ∈ ws, w.1 ≠ b) → writeAll amps ws b = amps b := by
  intro ws
  induction ws with
  | nil => intro amps b _; rfl
  | cons w tl ih =>
    intro amps b h
    rw [writeAll, ih _ b (fun v hv => h v (List.mem_cons_of_mem w hv)),
      Function.update_noteq (fun he => h w (List.mem_cons_self w tl) he.symm)]

/-- `cleanProf` never changes the weight. -/
theorem cleanProf_weight [DecidableEq α] {nbin : ℕ} (sqrtFn : α → α)
    (rvs : α → α → ℕ → List α) (bins : List (Fin nbin)) (prof : PsrProfile α nbin) :
    (cleanProf sqrtFn rvs bins prof).weight = prof.weight := by
  unfold cleanProf
  split_ifs <;> rfl

/-- `cleanProf` skips zero-weight profiles entirely. -/
theorem cleanProf_of_weight_zero [DecidableEq α] {nbin : ℕ} (sqrtFn : α → α)
    (rvs : α → α → ℕ → List α) (bins : List (Fin nbin)) (prof : PsrProfile α nbin)
    (hw : prof.weight = 0) : cleanProf sqrtFn rvs bins prof = prof := by
  unfold cleanProf
  rw [if_neg (by simp [hw])]

/-- `cleanProf` leaves amplitudes at unlisted bins unchanged. -/
theorem cleanProf_amps_notin [DecidableEq α] {nbin : ℕ} (sqrtFn : α → α)
    (rvs : α → α → ℕ → List α) (bins : List (Fin nbin)) (prof : PsrProfile α nbin)
    (b : Fin nbin) (hb : b ∉ bins) :
    (cleanProf sqrtFn rvs bins prof).amps b = prof.amps b := by
  unfold cleanProf
  split_ifs with hw
  · exact writeAll_notin _ _ b (fun w hwz he => hb (he ▸ (List.of_mem_zip hwz).1))
  · rfl

/-- C10: `clean_subint` only modifies amplitudes at the listed bins of
nonzero-weight profiles of the addressed sub-integration: other
sub-integrations are untouched, every weight is preserved, zero-weight
profiles are untouched, and amplitudes at unlisted bins are unchanged. -/
theorem claim_C10 {α : Type} [LinearOrderedField α] [DecidableEq α]
    {nsub npol nchan nbin : ℕ} (sqrtFn : α → α) (rvs : α → α → ℕ → List α)
    (ar : Archive α nsub npol nchan nbin) (isub : Fin nsub) (bins : List (Fin nbin)) :
    (∀ s : Fin nsub, s ≠ isub →
        (clean_subint sqrtFn rvs ar isub bins).profs s = ar.profs s) ∧
    (∀ (ipol : Fin npol) (ichan : Fin nchan),
        ((clean_subint sqrtFn rvs ar isub bins).profs isub ipol ichan).weight =
          (ar.profs isub ipol ichan).weight) ∧
    (∀ (ipol : Fin npol) (ichan : Fin nchan), (ar.profs isub ipol ichan).weight = 0 →
        (clean_subint sqrtFn rvs ar isub bins).profs isub ipol ichan =
          ar.profs isub ipol ichan) ∧
    (∀ (ipol : Fin npol) (ichan : Fin nchan) (b : Fin nbin), b ∉ bins →
        ((clean_subint sqrtFn rvs ar isub bins).profs isub ipol ichan).amps b =
          (ar.profs isub ipol ichan).amps b) := by
  have happ : ∀ (ipol : Fin npol) (ichan : Fin nchan),
      (clean_subint sqrtFn rvs ar isub bins).profs isub ipol ichan =
        cleanProf sqrtFn rvs bins (ar.profs isub ipol ichan) := by
    intro ipol ichan
    simp [clean_subint]
  refine ⟨fun s hs => ?_, fun ipol ichan => ?_, fun ipol ichan hw => ?_,
    fun ipol ichan b hb => ?_⟩
  · simp [clean_subint, hs]
  · rw [happ, cleanProf_weight]
  · rw [happ, cleanProf_of_weight_zero sqrtFn rvs bins _ hw]
  · rw [happ, cleanProf_amps_notin sqrtFn rvs bins _ b hb]

/-- Witness for C10 at a concrete input: replacing bin 0 of a 1×1×1×2 archive
(weights 1, amps `[5, 6]`) leaves the weight at 1 and the unlisted bin 1 at 6. -/
theorem claim_C10_witness :
    ((clean_subint id (fun _ _ k => List.replicate k (9:ℚ))
        (⟨fun _ _ _ => ⟨1, ![5, 6]⟩⟩ : Archive ℚ 1 1 1 2) 0 [0]).profs 0 0 0).weight = 1 ∧
    ((clean_subint id (fun _ _ k => List.replicate k (9:ℚ))
        (⟨fun _ _ _ => ⟨1, ![5, 6]⟩⟩ : Archive ℚ 1 1 1 2) 0 [0]).profs 0 0 0).amps 1 = 6 :=
  ⟨(claim_C10 id (fun _ _ k => List.replicate k (9:ℚ))
      (⟨fun _ _ _ => ⟨1, ![5, 6]⟩⟩ : Archive ℚ 1 1 1 2) 0 [0]).2.1 0 0,
   (claim_C10 id (fun _ _ k => List.replicate k (9:ℚ))
      (⟨fun _ _ _ => ⟨1, ![5, 6]⟩⟩ : Archive ℚ 1 1 1 2) 0 [0]).2.2.2 0 0 1
      (by decide)⟩

/-- Summing the constant 1 over a list counts its elements. -/
theorem sum_map_one {β : Type} (l : List β) :
    (l.map (fun _ => (1:α))).sum = (l.length : α) := by
  induction l with
  | nil => simp
  | cons a t ih => simp [ih, Nat.cast_succ, add_comm]

/-- Summing the second components of a zip of equal-length lists. -/
theorem sum_zip_snd (xs ys : List α) (h : xs.length = ys.length) :
    ((xs.zip ys).map (fun v => v.2)).sum = ys.sum := by
  induction xs generalizing ys with
  | nil =>
    cases ys with
    | nil => rfl
    | cons b u => simp at h
  | cons a t ih =>
    cases ys with
    | nil => simp at h
    | cons b u =>
      simp only [List.zip_cons_cons, List.map_cons, List.sum_cons]
      rw [ih u (by simpa using h)]

omit [LinearOrderedField α] in
/-- The single full segment `[0, n)` selects exactly the unmasked indices. -/
theorem segUnmasked_zero_top {n : ℕ} (y : MSeries α n) :
    segUnmasked y 0 n = unmaskedIdx y := by
  unfold segUnmasked unmaskedIdx
  apply List.filter_congr
  intro i _
  simp [i.isLt]

/-- The order-0 least-squares fit is the mean of the unmasked points: the
normal equations reduce to `count · c = Σ y`. -/
theorem lstsqPoly_zero [DecidableEq α] (xs ys : List α) (h : xs.length = ys.length)
    (hne : xs ≠ []) : lstsqPoly xs ys 0 = [ys.sum / (xs.length : α)] := by
  have hL : (xs.length : α) ≠ 0 :=
    Nat.cast_ne_zero.mpr (fun h0 => hne (List.length_eq_zero.mp h0))
  have hzip : ((xs.zip ys).map (fun v => v.1 ^ 0 * v.2)).sum = ys.sum := by
    simp only [pow_zero, one_mul]
    exact sum_zip_snd xs ys h
  have hpow : (xs.map (fun x => x ^ (0 + 0))).sum = (xs.length : α) := by
    simp only [Nat.add_zero, pow_zero]
    exact sum_map_one xs
  have hr1 : List.range 1 = [0] := rfl
  unfold lstsqPoly
  simp only [hr1, List.map_cons, List.map_nil, hzip, hpow]
  simp [gaussSolve, findPivot, dotL, hL]

/-- C6: with `order = 0` and no breakpoints, `detrend` subtracts the mean of
the unmasked points from the input at every position (masked ones included). -/
theorem claim_C6 {α : Type} [LinearOrderedField α] [DecidableEq α] {n : ℕ}
    (y : MSeries α n) (h : unmaskedList y ≠ []) (i : Fin n) :
    (detrend y 0 [] none).val i =
      y.val i - (unmaskedList y).sum / ((unmaskedList y).length : α) := by
  have hidx : segUnmasked y 0 n = unmaskedIdx y := segUnmasked_zero_top y
  have hlen : ¬(segUnmasked y 0 n).length = 0 := by
    rw [hidx]
    intro h0
    exact h (by simp [unmaskedList, List.length_eq_zero.mp h0])
  have hcoeffs : segCoeffs y 0 0 n =
      [(unmaskedList y).sum / ((unmaskedList y).length : α)] := by
    unfold segCoeffs
    rw [hidx, lstsqPoly_zero _ _ (by simp) (by
      intro h0
      exact hlen (by rw [hidx]; simpa using congrArg List.length h0))]
    simp [unmaskedList]
  show y.val i -
      (((edgesOf n [] none).zip (edgesOf n [] none).tail).map _).sum = _
  have hedges : edgesOf n [] none = [0, n] := rfl
  rw [hedges]
  simp only [List.tail_cons, List.zip_cons_cons, List.zip_nil_right, List.map_cons,
    List.map_nil, List.sum_cons, List.sum_nil, add_zero]
  rw [if_neg hlen, if_pos ⟨Nat.zero_le _, i.isLt⟩, hcoeffs]
  simp [polyEval]

/-- Witness for C6: on the series `([1, 2, 6], mask [false, true, false])`
(unmasked mean `7/2`) the detrended value at position 0 is `1 - 7/2 = -5/2`. -/
theorem claim_C6_witness :
    (detrend (⟨![1, 2, 6], ![false, true, false]⟩ : MSeries ℚ 3) 0 [] none).val 0 =
      -(5/2) := by
  with_unfolding_all
    exact claim_C6 (⟨![1, 2, 6], ![false, true, false]⟩ : MSeries ℚ 3) (by decide) 0

end CoastGuard
